import Mathlib

/-!
Verification development for the distributed Game of Life simulator
(life.c).  The C program is shallowly embedded: machine integers become
Nat/Int (widths, heights, counts and indices are natural numbers; the
signed adjacency offsets and candidate neighbour indices are integers),
the bool arrays become lists of booleans read with getD (out-of-range
reads never influence a result because every read is guarded by the
range checks, exactly as the C short-circuit conjunction guards them),
and the MPI message exchange of one generation is modelled by the data
it transports: every worker computes its range with apply_rules and the
coordinator splices each returned range into the next grid.
-/

set_option maxHeartbeats 1600000

namespace Life

/-- The eight signed index deltas of life.c lines 65-67.  The C width is an
int; all claims concern positive widths, so the width is a natural number
and each delta is an integer. -/
def adjacency_offsets (width : Nat) : List Int :=
  [-((width : Int) + 1), -(width : Int), -((width : Int) - 1), -1, 1,
   (width : Int) - 1, (width : Int), (width : Int) + 1]

/-- The boundary checks of life.c lines 195-203: the candidate index
cell + offset must not run off the top or bottom of the flattened array,
and the columns of the cell and of the candidate may differ by at most
one.  C computes % on two nonnegative ints here (the first two conjuncts
guard the candidate), where it agrees with Int.emod. -/
def checksPass (width height : Nat) (cell : Nat) (offset : Int) : Bool :=
  decide (0 ≤ (cell : Int) + offset) &&
  decide ((cell : Int) + offset < (width : Int) * (height : Int)) &&
  decide ((((cell : Int) % (width : Int)) -
    (((cell : Int) + offset) % (width : Int))).natAbs ≤ 1)

/-- One conjunct chain of the neighbour loop of life.c lines 195-205:
the candidate passes the boundary checks and holds a live cell. -/
def countedAsLive (last : List Bool) (width height : Nat) (cell : Nat)
    (offset : Int) : Bool :=
  checksPass width height cell offset &&
  last.getD ((cell : Int) + offset).toNat false

/-- The neighbour-counting loop of life.c lines 185-209. -/
def alive_adj_cells (last : List Bool) (width height : Nat) (cell : Nat) : Nat :=
  (adjacency_offsets width).countP (countedAsLive last width height cell)

/-- The per-cell rule of life.c lines 211-224, the contract nextState of
spec section 4.2: a live cell survives with two or three live neighbours,
a dead cell is born with exactly three, every other case yields dead. -/
def nextState (cell : Nat) (last : List Bool) (width height : Nat) : Bool :=
  if last.getD cell false then
    decide (alive_adj_cells last width height cell = 2 ∨
      alive_adj_cells last width height cell = 3)
  else
    decide (alive_adj_cells last width height cell = 3)

/-- ProcInfo of life.c lines 28-32: a worker's contiguous cell range. -/
structure ProcInfo where
  offset : Nat
  num_cells : Nat
deriving DecidableEq, Repr

/-- apply_rules of life.c lines 178-226: write the next state of every
cell of the worker's range into the output buffer. -/
def apply_rules (pd : ProcInfo) (last new : List Bool) (width height : Nat) :
    List Bool :=
  (List.range pd.num_cells).foldl
    (fun buf idx =>
      buf.set (pd.offset + idx) (nextState (pd.offset + idx) last width height))
    new

/-- The partition table computed by the coordinator, life.c lines 79-92
(spec section 4.1).  The C code takes floor over a double quotient of two
ints, which is natural-number division. -/
def partition (totalCells workerCount : Nat) : List ProcInfo :=
  let base := totalCells / workerCount
  ((List.range (workerCount - 1)).map fun i => ⟨i * base, base⟩) ++
    [⟨base * (workerCount - 1), base + totalCells % workerCount⟩]

/-- Modelled from the spec: the Worker contract computePartition of spec
section 4.3, the sequence of next states of the cells of one partition.
It is proved below to coincide with the range that apply_rules produces. -/
def computePartition (pd : ProcInfo) (prev : List Bool) (width height : Nat) :
    List Bool :=
  (List.range pd.num_cells).map fun k => nextState (pd.offset + k) prev width height

/-- The coordinator's merge of one returned range, life.c lines 141-146:
MPI_Recv places num_cells booleans starting at the partition offset. -/
def writeRange (buf : List Bool) (off : Nat) (vals : List Bool) : List Bool :=
  (List.range vals.length).foldl (fun b k => b.set (off + k) (vals.getD k false)) buf

/-- The range a worker sends back, life.c lines 163-165: the slice of its
own output buffer (calloc'd, hence initially all false) at its offset. -/
def worker_result (pd : ProcInfo) (last : List Bool) (width height N : Nat) :
    List Bool :=
  ((apply_rules pd last (List.replicate N false) width height).drop pd.offset).take
    pd.num_cells

/-- One full distributed generation: every worker computes its range from
the same previous grid and the coordinator splices every returned range
into the next grid (life.c lines 120-168, one loop iteration). -/
def distributed_generation (parts : List ProcInfo) (last : List Bool)
    (width height N : Nat) : List Bool :=
  parts.foldl
    (fun buf pd => writeRange buf pd.offset (worker_result pd last width height N))
    (List.replicate N false)

/-- One sequential full-grid generation: apply_rules over the whole grid,
the single-worker code path. -/
def next_generation (last : List Bool) (width height : Nat) : List Bool :=
  apply_rules ⟨0, width * height⟩ last (List.replicate (width * height) false)
    width height

/-- The loop of fill_game_field, life.c lines 251-262, with the stream of
rand() draws abstracted as a function from loop index to a natural number.
The state is the field together with cells_to_generate. -/
def fill_loop (N live_cells : Nat) (rng : Nat → Nat) (i : Nat)
    (st : List Bool × Nat) : List Bool × Nat :=
  if h : i < N then
    fill_loop N live_cells rng (i + 1)
      (if st.2 > 0 &&
          (decide (N - (i + 1) = st.2) || decide (rng i % N < live_cells)) then
        (st.1.set i true, st.2 - 1)
      else st)
  else st
termination_by N - i

/-- fill_game_field of life.c lines 247-263: the field starts calloc'd
all false and the loop fills cells left to right. -/
def fill_game_field (width height live_cells : Nat) (rng : Nat → Nat) :
    List Bool :=
  (fill_loop (width * height) live_cells rng 0
    (List.replicate (width * height) false, live_cells)).1

/-- The run parameters read by read_args, life.c lines 265-287. -/
structure RunConfig where
  live_cells : Int
  iterations : Int
  print_modulo : Int
  width : Int
  height : Int
deriving DecidableEq, Repr

/-- read_args of life.c lines 265-287.  The strtol of argument word k is
modelled as the integer value argv k; MPI_Abort (which terminates the whole
run with a non-zero status) is modelled as none.  The code aborts exactly
when the argument count differs from six on rank zero; it stores the five
integer values without validating them otherwise. -/
def read_args (argc : Nat) (argv : Nat → Int) (proc_id : Nat) : Option RunConfig :=
  if argc ≠ 6 ∧ proc_id = 0 then none
  else some ⟨argv 1, argv 2, argv 3, argv 4, argv 5⟩

/-- The horizontal blinker grid: all dead except the three cells of row cr
at columns cc-1, cc, cc+1. -/
def blinker_h (width height cr cc : Nat) : List Bool :=
  (List.range (width * height)).map fun n =>
    decide (n = cr * width + (cc - 1)) || decide (n = cr * width + cc) ||
      decide (n = cr * width + (cc + 1))

/-- The vertical blinker grid: all dead except the three cells of column cc
at rows cr-1, cr, cr+1. -/
def blinker_v (width height cr cc : Nat) : List Bool :=
  (List.range (width * height)).map fun n =>
    decide (n = (cr - 1) * width + cc) || decide (n = cr * width + cc) ||
      decide (n = (cr + 1) * width + cc)

/-- Coordinate-level neighbour indicator: one when row r and column c name
an in-grid live cell of g, zero otherwise. -/
def nb (g : List Bool) (width height : Nat) (r c : Int) : Nat :=
  if 0 ≤ r ∧ r < (height : Int) ∧ 0 ≤ c ∧ c < (width : Int) ∧
      g.getD (r * (width : Int) + c).toNat false = true then 1 else 0

/-- Modelled from the spec: a true grid neighbour of a cell (claim C10):
an in-range index other than the cell whose row and column each differ
from the cell's by at most one. -/
def is_grid_neighbor (width height : Nat) (cell : Nat) (n : Int) : Prop :=
  0 ≤ n ∧ n < (width : Int) * (height : Int) ∧ n ≠ (cell : Int) ∧
  (((cell : Int) / (width : Int)) - (n / (width : Int))).natAbs ≤ 1 ∧
  (((cell : Int) % (width : Int)) - (n % (width : Int))).natAbs ≤ 1

/-- Row-major decomposition: remainder of a row-column index. -/
theorem emod_row_col (r c w : Int) (h0 : 0 ≤ c) (h1 : c < w) :
    (r * w + c) % w = c := by
  rw [add_comm, mul_comm, Int.add_mul_emod_self_left, Int.emod_eq_of_lt h0 h1]

/-- Row-major decomposition: quotient of a row-column index. -/
theorem ediv_row_col (r c w : Int) (h0 : 0 ≤ c) (h1 : c < w) :
    (r * w + c) / w = r := by
  have hw : w ≠ 0 := by omega
  rw [add_comm, mul_comm, Int.add_mul_ediv_left _ _ hw,
    Int.ediv_eq_zero_of_lt h0 h1, zero_add]

/-- A row-column index is in the flattened range exactly when its row is. -/
theorem range_row_col (r c w h : Int) (h0 : 0 ≤ c) (h1 : c < w) :
    (0 ≤ r * w + c ↔ 0 ≤ r) ∧ (r * w + c < w * h ↔ r < h) := by
  have hw : 0 < w := by omega
  refine ⟨⟨fun hn => ?_, fun hr => by positivity⟩, ⟨fun hn => ?_, fun hr => ?_⟩⟩
  · by_contra hr
    push_neg at hr
    have h2 : r ≤ -1 := by omega
    nlinarith
  · by_contra hr
    push_neg at hr
    nlinarith
  · have h2 : r + 1 ≤ h := by omega
    nlinarith

/-- Row-column indices agree exactly when rows and columns agree. -/
theorem index_eq_iff (r1 c1 r2 c2 w : Int) (h1 : 0 ≤ c1) (h2 : c1 < w)
    (h3 : 0 ≤ c2) (h4 : c2 < w) :
    r1 * w + c1 = r2 * w + c2 ↔ r1 = r2 ∧ c1 = c2 := by
  constructor
  · intro heq
    have hc : c1 = c2 := by
      have hmod := congrArg (fun z => z % w) heq
      simpa [emod_row_col _ _ _ h1 h2, emod_row_col _ _ _ h3 h4] using hmod
    refine ⟨?_, hc⟩
    have hw : w ≠ 0 := by omega
    have hr : r1 * w = r2 * w := by omega
    exact mul_right_cancel₀ hw hr
  · rintro ⟨rfl, rfl⟩
    rfl

/-- Nat version of the row-column index equality. -/
theorem index_eq_iff_nat (r1 c1 r2 c2 w : Nat) (h2 : c1 < w) (h4 : c2 < w) :
    r1 * w + c1 = r2 * w + c2 ↔ r1 = r2 ∧ c1 = c2 := by
  have := index_eq_iff (r1 : Int) (c1 : Int) (r2 : Int) (c2 : Int) (w : Int)
    (by positivity) (by exact_mod_cast h2) (by positivity) (by exact_mod_cast h4)
  constructor
  · intro heq
    have hcast : (r1 : Int) * w + c1 = (r2 : Int) * w + c2 := by exact_mod_cast heq
    have := this.mp hcast
    exact ⟨by exact_mod_cast this.1, by exact_mod_cast this.2⟩
  · rintro ⟨rfl, rfl⟩
    rfl

/-- Reading a mapped range list. -/
theorem getD_map_range (N : Nat) (f : Nat → Bool) (n : Nat) (hn : n < N) :
    ((List.range N).map f).getD n false = f n := by
  rw [List.getD_eq_getElem?_getD, List.getElem?_map, List.getElem?_range hn]
  rfl

/-- Reading a mapped range list out of range. -/
theorem getD_map_range_ge (N : Nat) (f : Nat → Bool) (n : Nat) (hn : N ≤ n) :
    ((List.range N).map f).getD n false = false := by
  rw [List.getD_eq_getElem?_getD, List.getElem?_eq_none]
  · rfl
  · simpa using hn

/-- Reading a set list with getD at a different index. -/
theorem getD_set_ne (l : List Bool) (i j : Nat) (b : Bool) (hij : i ≠ j) :
    (l.set i b).getD j false = l.getD j false := by
  rw [List.getD_eq_getElem?_getD, List.getD_eq_getElem?_getD,
    List.getElem?_set_ne hij]

/-- Reading a set list with getD at the written index. -/
theorem getD_set_self (l : List Bool) (i : Nat) (b : Bool) (hi : i < l.length) :
    (l.set i b).getD i false = b := by
  rw [List.getD_eq_getElem?_getD, List.getElem?_set_eq_of_lt _ hi]
  rfl

/-- A fold of writes at indices off + k for k below n preserves length. -/
theorem foldl_set_range_length (off n : Nat) (v : Nat → Bool) (b : List Bool) :
    ((List.range n).foldl (fun buf k => buf.set (off + k) (v k)) b).length =
      b.length := by
  induction n generalizing b with
  | zero => rfl
  | succ m ih =>
    rw [List.range_succ, List.foldl_append, List.foldl_cons, List.foldl_nil,
      List.length_set, ih]

/-- Reading the result of a fold of writes at indices off + k for k below n:
inside the written window (and inside the buffer) the written value, outside
it the original buffer. -/
theorem foldl_set_range_getD (off n : Nat) (v : Nat → Bool) (b : List Bool)
    (j : Nat) :
    ((List.range n).foldl (fun buf k => buf.set (off + k) (v k)) b).getD j
        false =
      if off ≤ j ∧ j < off + n ∧ j < b.length then v (j - off)
      else b.getD j false := by
  induction n generalizing b with
  | zero =>
    simp only [List.range_zero, List.foldl_nil]
    have : ¬(off ≤ j ∧ j < off + 0 ∧ j < b.length) := by omega
    rw [if_neg this]
  | succ m ih =>
    rw [List.range_succ, List.foldl_append, List.foldl_cons, List.foldl_nil]
    by_cases hj : j = off + m
    · subst hj
      by_cases hlen : off + m < b.length
      · have hfold : ((List.range m).foldl
            (fun buf k => buf.set (off + k) (v k)) b).length = b.length :=
          foldl_set_range_length off m v b
        rw [getD_set_self _ _ _ (by rw [hfold]; exact hlen)]
        have hc : off ≤ off + m ∧ off + m < off + (m + 1) ∧ off + m < b.length :=
          ⟨by omega, by omega, hlen⟩
        rw [if_pos hc]
        congr 1
        omega
      · have hset : (((List.range m).foldl
            (fun buf k => buf.set (off + k) (v k)) b).set (off + m)
              (v m)).getD (off + m) false =
            ((List.range m).foldl (fun buf k => buf.set (off + k) (v k))
              b).getD (off + m) false := by
          rw [List.getD_eq_getElem?_getD, List.getD_eq_getElem?_getD,
            List.getElem?_set_self']
          have : (((List.range m).foldl (fun buf k => buf.set (off + k) (v k))
              b)[off + m]?) = none := by
            rw [List.getElem?_eq_none]
            rw [foldl_set_range_length off m v b]
            omega
          rw [this]
          rfl
        rw [hset, ih]
        have h1 : ¬(off ≤ off + m ∧ off + m < off + m ∧ off + m < b.length) := by
          omega
        have h2 : ¬(off ≤ off + m ∧ off + m < off + (m + 1) ∧
            off + m < b.length) := by omega
        rw [if_neg h1, if_neg h2]
    · rw [getD_set_ne _ _ _ _ (fun h => hj h.symm), ih]
      by_cases hc : off ≤ j ∧ j < off + m ∧ j < b.length
      · rw [if_pos hc, if_pos ⟨hc.1, by omega, hc.2.2⟩]
      · rw [if_neg hc, if_neg (by omega)]

/-- apply_rules preserves the length of the output buffer. -/
theorem apply_rules_length (pd : ProcInfo) (last new : List Bool)
    (width height : Nat) :
    (apply_rules pd last new width height).length = new.length :=
  foldl_set_range_length pd.offset pd.num_cells
    (fun k => nextState (pd.offset + k) last width height) new

/-- Reading the output of apply_rules: inside the worker's range the next
state of the cell, outside it the untouched buffer entry. -/
theorem apply_rules_getD (pd : ProcInfo) (last new : List Bool)
    (width height j : Nat) :
    (apply_rules pd last new width height).getD j false =
      if pd.offset ≤ j ∧ j < pd.offset + pd.num_cells ∧ j < new.length then
        nextState j last width height
      else new.getD j false := by
  have h := foldl_set_range_getD pd.offset pd.num_cells
    (fun k => nextState (pd.offset + k) last width height) new j
  rw [apply_rules, h]
  by_cases hc : pd.offset ≤ j ∧ j < pd.offset + pd.num_cells ∧ j < new.length
  · rw [if_pos hc, if_pos hc]
    congr 1
    omega
  · rw [if_neg hc, if_neg hc]

/-- writeRange preserves the length of the buffer. -/
theorem writeRange_length (buf : List Bool) (off : Nat) (vals : List Bool) :
    (writeRange buf off vals).length = buf.length :=
  foldl_set_range_length off vals.length (fun k => vals.getD k false) buf

/-- Reading the result of a merged range: inside the spliced window the
sent value, outside it the previous buffer entry. -/
theorem writeRange_getD (buf : List Bool) (off : Nat) (vals : List Bool)
    (j : Nat) :
    (writeRange buf off vals).getD j false =
      if off ≤ j ∧ j < off + vals.length ∧ j < buf.length then
        vals.getD (j - off) false
      else buf.getD j false :=
  foldl_set_range_getD off vals.length (fun k => vals.getD k false) buf j

/-- The partition table has one entry per worker. -/
theorem partition_length (N W : Nat) (hW : 1 ≤ W) :
    (partition N W).length = W := by
  unfold partition
  simp only [List.length_append, List.length_map, List.length_range,
    List.length_cons, List.length_nil]
  omega

/-- Closed form of every entry of the partition table. -/
theorem partition_getD (N W i : Nat) (hi : i < W) :
    (partition N W).getD i ⟨0, 0⟩ =
      if i < W - 1 then ⟨i * (N / W), N / W⟩
      else ⟨(N / W) * (W - 1), N / W + N % W⟩ := by
  unfold partition
  simp only [List.getD_eq_getElem?_getD]
  by_cases h : i < W - 1
  · rw [List.getElem?_append_left (by simpa using h), List.getElem?_map,
      List.getElem?_range h, if_pos h]
    rfl
  · have hi1 : i = W - 1 := by omega
    subst hi1
    rw [List.getElem?_append_right (by simpa using h)]
    simp only [List.length_map, List.length_range, Nat.sub_self,
      List.getElem?_cons_zero, if_neg h]
    rfl

/-- The last worker's range ends exactly at the grid size. -/
theorem partition_last_end (N W : Nat) (hW : 1 ≤ W) :
    (N / W) * (W - 1) + (N / W + N % W) = N := by
  obtain ⟨V, rfl⟩ : ∃ V, W = V + 1 := ⟨W - 1, by omega⟩
  have hdm := Nat.div_add_mod N (V + 1)
  simp only [Nat.add_sub_cancel]
  ring_nf
  ring_nf at hdm
  omega

/-- Every partition entry fits inside the grid. -/
theorem partition_fits (N W : Nat) (hW : 1 ≤ W) :
    ∀ pd ∈ partition N W, pd.offset + pd.num_cells ≤ N := by
  intro pd hpd
  unfold partition at hpd
  rcases List.mem_append.mp hpd with hl | hr
  · obtain ⟨i, hi, rfl⟩ := List.mem_map.mp hl
    rw [List.mem_range] at hi
    show i * (N / W) + N / W ≤ N
    calc i * (N / W) + N / W = (i + 1) * (N / W) := by ring
      _ ≤ (W - 1) * (N / W) := Nat.mul_le_mul_right _ (by omega)
      _ = (N / W) * (W - 1) := by ring
      _ ≤ N := Nat.le.intro (partition_last_end N W hW)
  · have hpd1 : pd = ⟨(N / W) * (W - 1), N / W + N % W⟩ := by
      simpa using hr
    subst hpd1
    show (N / W) * (W - 1) + (N / W + N % W) ≤ N
    exact Nat.le_of_eq (partition_last_end N W hW)

/-- The counts of the partition table sum to the number of cells. -/
theorem partition_sum (N W : Nat) (hW : 1 ≤ W) :
    ((partition N W).map ProcInfo.num_cells).sum = N := by
  unfold partition
  rw [List.map_append, List.map_map, List.sum_append]
  have h1 : (List.map (ProcInfo.num_cells ∘ fun i => (⟨i * (N / W), N / W⟩ :
      ProcInfo)) (List.range (W - 1))) = List.replicate (W - 1) (N / W) := by
    rw [show (ProcInfo.num_cells ∘ fun i => (⟨i * (N / W), N / W⟩ : ProcInfo)) =
      fun _ => N / W from rfl, List.map_const']
    rw [List.length_range]
  rw [h1, List.sum_replicate, smul_eq_mul]
  simp only [List.map_cons, List.map_nil, List.sum_cons, List.sum_nil, Nat.add_zero]
  have h2 : (W - 1) * (N / W) = (N / W) * (W - 1) := Nat.mul_comm _ _
  have h3 := partition_last_end N W hW
  omega

/-- C2: for all totalCells at least one and workerCount at least one,
partition returns exactly workerCount partitions that are contiguous and
pairwise non-overlapping, worker i below workerCount - 1 gets offset
i * base and count base with base the floor of totalCells / workerCount,
the last worker gets offset base * (workerCount - 1) and count
base + totalCells mod workerCount, and the counts sum to totalCells. -/
theorem partition_spec (N W : Nat) (hN : 1 ≤ N) (hW : 1 ≤ W) :
    (partition N W).length = W ∧
    (∀ i, i < W - 1 →
      (partition N W).getD i ⟨0, 0⟩ = ⟨i * (N / W), N / W⟩) ∧
    (partition N W).getD (W - 1) ⟨0, 0⟩ =
      ⟨(N / W) * (W - 1), N / W + N % W⟩ ∧
    (∀ i, i + 1 < W →
      ((partition N W).getD (i + 1) ⟨0, 0⟩).offset =
        ((partition N W).getD i ⟨0, 0⟩).offset +
          ((partition N W).getD i ⟨0, 0⟩).num_cells) ∧
    ((partition N W).map ProcInfo.num_cells).sum = N ∧
    (∀ i j c, i < W → j < W → i ≠ j →
      ((partition N W).getD i ⟨0, 0⟩).offset ≤ c →
      c < ((partition N W).getD i ⟨0, 0⟩).offset +
        ((partition N W).getD i ⟨0, 0⟩).num_cells →
      ¬(((partition N W).getD j ⟨0, 0⟩).offset ≤ c ∧
        c < ((partition N W).getD j ⟨0, 0⟩).offset +
          ((partition N W).getD j ⟨0, 0⟩).num_cells)) := by
  refine ⟨partition_length N W hW, fun i hi => ?_, ?_, fun i hi => ?_, partition_sum N W hW, ?_⟩
  · rw [partition_getD N W i (by omega), if_pos hi]
  · rw [partition_getD N W (W - 1) (by omega), if_neg (by omega)]
  · by_cases h1 : i + 1 < W - 1
    · rw [partition_getD N W (i + 1) (by omega), if_pos h1,
        partition_getD N W i (by omega), if_pos (by omega)]
      show (i + 1) * (N / W) = i * (N / W) + N / W
      ring
    · have h2 : i + 1 = W - 1 := by omega
      rw [partition_getD N W (i + 1) (by omega), if_neg (by omega),
        partition_getD N W i (by omega), if_pos (by omega)]
      show (N / W) * (W - 1) = i * (N / W) + N / W
      rw [← h2]
      ring
  · intro i j c hi hj hij hci hci2 hcj
    have key : ∀ a b : Nat, a < b → b < W →
        ((partition N W).getD a ⟨0, 0⟩).offset +
          ((partition N W).getD a ⟨0, 0⟩).num_cells ≤
        ((partition N W).getD b ⟨0, 0⟩).offset := by
      intro a b hab hb
      rw [partition_getD N W a (by omega), if_pos (by omega),
        partition_getD N W b (by omega)]
      by_cases h2 : b < W - 1
      · rw [if_pos h2]
        show a * (N / W) + N / W ≤ b * (N / W)
        calc a * (N / W) + N / W = (a + 1) * (N / W) := by ring
          _ ≤ b * (N / W) := Nat.mul_le_mul_right _ (by omega)
      · rw [if_neg h2]
        show a * (N / W) + N / W ≤ (N / W) * (W - 1)
        calc a * (N / W) + N / W = (a + 1) * (N / W) := by ring
          _ ≤ (W - 1) * (N / W) := Nat.mul_le_mul_right _ (by omega)
          _ = (N / W) * (W - 1) := by ring
    rcases Nat.lt_or_ge i j with h | h
    · have := key i j h hj
      omega
    · have hji : j < i := by omega
      have := key j i hji hi
      omega

/-- Witness for C2 at totalCells 10 and workerCount 3. -/
theorem partition_spec_witness :
    (1 ≤ 10 ∧ 1 ≤ 3) ∧
    ((partition 10 3).length = 3 ∧
    (∀ i, i < 3 - 1 →
      (partition 10 3).getD i ⟨0, 0⟩ = ⟨i * (10 / 3), 10 / 3⟩) ∧
    (partition 10 3).getD (3 - 1) ⟨0, 0⟩ =
      ⟨(10 / 3) * (3 - 1), 10 / 3 + 10 % 3⟩ ∧
    (∀ i, i + 1 < 3 →
      ((partition 10 3).getD (i + 1) ⟨0, 0⟩).offset =
        ((partition 10 3).getD i ⟨0, 0⟩).offset +
          ((partition 10 3).getD i ⟨0, 0⟩).num_cells) ∧
    ((partition 10 3).map ProcInfo.num_cells).sum = 10 ∧
    (∀ i j c, i < 3 → j < 3 → i ≠ j →
      ((partition 10 3).getD i ⟨0, 0⟩).offset ≤ c →
      c < ((partition 10 3).getD i ⟨0, 0⟩).offset +
        ((partition 10 3).getD i ⟨0, 0⟩).num_cells →
      ¬(((partition 10 3).getD j ⟨0, 0⟩).offset ≤ c ∧
        c < ((partition 10 3).getD j ⟨0, 0⟩).offset +
          ((partition 10 3).getD j ⟨0, 0⟩).num_cells))) :=
  ⟨⟨by decide, by decide⟩, partition_spec 10 3 (by decide) (by decide)⟩

/-- C3: the neighbour count of a cell counts exactly those of the eight
adjacency offsets whose candidate index n = cell + offset lies in
[0, width * height), whose column differs from the cell's by at most one,
and which holds a live cell; a live cell is then live in the next
generation iff that count is two or three, a dead cell becomes live iff
the count is exactly three, and every other case yields dead. -/
theorem nextState_rule (cell : Nat) (prev : List Bool) (w h : Nat)
    (hw : 0 < w) (hh : 0 < h) :
    alive_adj_cells prev w h cell =
      (adjacency_offsets w).countP (fun o =>
        decide (0 ≤ (cell : Int) + o ∧ (cell : Int) + o < (w : Int) * (h : Int) ∧
          (((cell : Int) % (w : Int)) -
            (((cell : Int) + o) % (w : Int))).natAbs ≤ 1 ∧
          prev.getD ((cell : Int) + o).toNat false = true)) ∧
    (nextState cell prev w h = true ↔
      ((prev.getD cell false = true ∧
         (alive_adj_cells prev w h cell = 2 ∨
          alive_adj_cells prev w h cell = 3)) ∨
       (prev.getD cell false = false ∧ alive_adj_cells prev w h cell = 3))) := by
  constructor
  · unfold alive_adj_cells
    congr 1
    funext o
    simp only [countedAsLive, checksPass, decide_eq_true_eq, Bool.and_assoc]
    by_cases h1 : 0 ≤ (cell : Int) + o
    · by_cases h2 : (cell : Int) + o < (w : Int) * (h : Int)
      · by_cases h3 : (((cell : Int) % (w : Int)) -
            (((cell : Int) + o) % (w : Int))).natAbs ≤ 1
        · simp [h1, h2, h3]
        · simp [h1, h2, h3]
      · simp [h1, h2]
    · simp [h1]
  · rw [nextState]
    by_cases hp : prev.getD cell false
    · simp only [hp, if_true, decide_eq_true_eq]
      simp
    · simp only [Bool.not_eq_true] at hp
      simp only [hp, Bool.false_eq_true, if_false, decide_eq_true_eq]
      simp

/-- Witness for C3 at the centre cell of a 3 by 3 grid holding a 2 by 2
live block. -/
theorem nextState_rule_witness :
    (0 < 3 ∧ 0 < 3) ∧
    (alive_adj_cells [true, true, false, true, true, false, false, false, false]
        3 3 4 =
      (adjacency_offsets 3).countP (fun o =>
        decide (0 ≤ (4 : Int) + o ∧ (4 : Int) + o < (3 : Int) * (3 : Int) ∧
          ((((4 : Nat) : Int) % (3 : Int)) -
            (((4 : Nat) : Int) + o) % (3 : Int)).natAbs ≤ 1 ∧
          [true, true, false, true, true, false, false, false,
            false].getD (((4 : Nat) : Int) + o).toNat false = true)) ∧
    (nextState 4 [true, true, false, true, true, false, false, false, false]
        3 3 = true ↔
      (([true, true, false, true, true, false, false, false,
          false].getD 4 false = true ∧
         (alive_adj_cells [true, true, false, true, true, false, false, false,
            false] 3 3 4 = 2 ∨
          alive_adj_cells [true, true, false, true, true, false, false, false,
            false] 3 3 4 = 3)) ∨
       ([true, true, false, true, true, false, false, false,
          false].getD 4 false = false ∧
        alive_adj_cells [true, true, false, true, true, false, false, false,
          false] 3 3 4 = 3)))) :=
  ⟨⟨by decide, by decide⟩,
    nextState_rule 4 [true, true, false, true, true, false, false, false, false]
      3 3 (by decide) (by decide)⟩

/-- C6: the worker's computation writes only the cells of its assigned
range offset .. offset + count - 1 of the output buffer; every cell of the
output buffer outside that range is left unchanged (and the buffer keeps
its length). -/
theorem apply_rules_frame (pd : ProcInfo) (last new : List Bool)
    (w h j : Nat) (hj : j < pd.offset ∨ pd.offset + pd.num_cells ≤ j) :
    (apply_rules pd last new w h).getD j false = new.getD j false ∧
    (apply_rules pd last new w h).length = new.length := by
  refine ⟨?_, apply_rules_length pd last new w h⟩
  rw [apply_rules_getD, if_neg (by omega)]

/-- Witness for C6: a worker owning cells 1 and 2 of a four-cell grid
leaves cells 0 and 3 untouched. -/
theorem apply_rules_frame_witness :
    ((0 < 1 ∨ 1 + 2 ≤ 0) ∧
      (apply_rules ⟨1, 2⟩ [true, true, true, false] [true, false, true, false]
          4 1).getD 0 false = [true, false, true, false].getD 0 false ∧
      (apply_rules ⟨1, 2⟩ [true, true, true, false] [true, false, true, false]
          4 1).length = ([true, false, true, false] : List Bool).length) ∧
    ((3 < 1 ∨ 1 + 2 ≤ 3) ∧
      (apply_rules ⟨1, 2⟩ [true, true, true, false] [true, false, true, false]
          4 1).getD 3 false = [true, false, true, false].getD 3 false) :=
  ⟨⟨Or.inl (by decide),
    apply_rules_frame ⟨1, 2⟩ [true, true, true, false] [true, false, true, false]
      4 1 0 (Or.inl (by decide))⟩,
   ⟨Or.inr (by decide),
    (apply_rules_frame ⟨1, 2⟩ [true, true, true, false] [true, false, true, false]
      4 1 3 (Or.inr (by decide))).1⟩⟩

/-- C8 counterexample: a run invoked with the correct arity but a
non-positive width (and non-positive print interval and height) is NOT
detected by read_args: it returns a configuration instead of aborting, so
the claim that non-positive width, height or printEvery aborts the run is
false on the code.  The code only tests the argument count. -/
theorem read_args_no_value_validation :
    read_args 6 (fun _ => -3) 0 = some ⟨-3, -3, -3, -3, -3⟩ ∧
    ((-3 : Int) ≤ 0) := by
  constructor
  · rfl
  · decide

/-- C8 amended: read_args aborts the run (on rank zero, hence once for the
whole run, before any generation is computed) exactly when the argument
count differs from six; with six arguments it stores the five parsed
values unvalidated, whatever their signs. -/
theorem read_args_behavior (argc : Nat) (argv : Nat → Int) (pid : Nat) :
    (argc ≠ 6 ∧ pid = 0 → read_args argc argv pid = none) ∧
    (argc = 6 → read_args argc argv pid =
      some ⟨argv 1, argv 2, argv 3, argv 4, argv 5⟩) := by
  constructor
  · intro hcond
    rw [read_args, if_pos hcond]
  · intro h6
    rw [read_args, if_neg (by omega)]

/-- Witness for C8: wrong arity on rank zero aborts; correct arity with
value -7 for every parameter is accepted. -/
theorem read_args_behavior_witness :
    read_args 3 (fun _ => 0) 0 = none ∧
    read_args 6 (fun _ => -7) 4 = some ⟨-7, -7, -7, -7, -7⟩ :=
  ⟨(read_args_behavior 3 (fun _ => 0) 0).1 (by constructor <;> decide),
   (read_args_behavior 6 (fun _ => -7) 4).2 (by decide)⟩

/-- Reading a replicate with getD. -/
theorem getD_replicate_false (n j : Nat) :
    (List.replicate n false).getD j false = false := by
  rw [List.getD_eq_getElem?_getD, List.getElem?_replicate]
  by_cases h : j < n
  · rw [if_pos h]
    rfl
  · rw [if_neg h]
    rfl

/-- getD at an index below the length is the element there. -/
theorem getD_eq_getElem (l : List Bool) (j : Nat) (hj : j < l.length) :
    l.getD j false = l[j] := by
  rw [List.getD_eq_getElem?_getD, List.getElem?_eq_getElem hj]
  rfl

/-- Setting a false entry to true raises the count of trues by one. -/
theorem count_true_set (f : List Bool) (i : Nat) (hi : i < f.length)
    (hfi : f.getD i false = false) :
    (f.set i true).count true = f.count true + 1 := by
  induction f generalizing i with
  | nil => simp at hi
  | cons a t ih =>
    cases i with
    | zero =>
      have ha : a = false := by
        simpa using hfi
      subst ha
      simp [List.count_cons]
    | succ n =>
      have hn : n < t.length := by
        simpa using hi
      have hgd : t.getD n false = false := by
        simpa using hfi
      simp only [List.set_cons_succ, List.count_cons, ih n hn hgd]
      omega

/-- fill_loop preserves the field length. -/
theorem fill_loop_length (N L : Nat) (rng : Nat → Nat) :
    ∀ k i f c, N - i = k →
      (fill_loop N L rng i (f, c)).1.length = f.length := by
  intro k
  induction k with
  | zero =>
    intro i f c hk
    rw [fill_loop, dif_neg (by omega)]
  | succ m ih =>
    intro i f c hk
    rw [fill_loop, dif_pos (by omega : i < N)]
    by_cases hcond : (decide (c > 0) &&
        (decide (N - (i + 1) = c) || decide (rng i % N < L))) = true
    · rw [if_pos hcond]
      rw [ih (i + 1) (f.set i true) (c - 1) (by omega)]
      exact List.length_set f i true
    · rw [if_neg hcond]
      exact ih (i + 1) f c (by omega)

/-- The filling loop invariant: with every cell from the loop index on
still false and enough room left for the outstanding cells, the loop fills
exactly the outstanding number of cells. -/
theorem fill_loop_count (N L : Nat) (rng : Nat → Nat) :
    ∀ k i f c, N - i = k → f.length = N →
      (∀ j, i ≤ j → f.getD j false = false) →
      (c = 0 ∨ c + i < N) →
      (fill_loop N L rng i (f, c)).1.count true = f.count true + c := by
  intro k
  induction k with
  | zero =>
    intro i f c hk hlen huntouched hinv
    rw [fill_loop, dif_neg (by omega)]
    have hc : c = 0 := by omega
    rw [hc]
    rfl
  | succ m ih =>
    intro i f c hk hlen huntouched hinv
    rw [fill_loop, dif_pos (by omega : i < N)]
    by_cases hcond : (decide (c > 0) &&
        (decide (N - (i + 1) = c) || decide (rng i % N < L))) = true
    · rw [if_pos hcond]
      simp only [Bool.and_eq_true, Bool.or_eq_true, decide_eq_true_eq,
        gt_iff_lt] at hcond
      have hfi : f.getD i false = false := huntouched i (Nat.le_refl i)
      have hset : ∀ j, i + 1 ≤ j → (f.set i true).getD j false = false := by
        intro j hj
        rw [getD_set_ne f i j true (by omega)]
        exact huntouched j (by omega)
      rw [ih (i + 1) (f.set i true) (c - 1) (by omega)
        (by rw [List.length_set]; exact hlen) hset (by omega),
        count_true_set f i (by omega) hfi]
      omega
    · rw [if_neg hcond]
      simp only [Bool.and_eq_true, Bool.or_eq_true, decide_eq_true_eq,
        gt_iff_lt, not_and, not_or] at hcond
      refine ih (i + 1) f c (by omega) hlen
        (fun j hj => huntouched j (by omega)) ?_
      by_cases hc0 : c = 0
      · exact Or.inl hc0
      · have hb := hcond (by omega)
        right
        omega

/-- When at least as many live cells are requested as the grid holds, the
random test always passes and the loop fills every cell. -/
theorem fill_loop_all (N L : Nat) (rng : Nat → Nat) (hN : 0 < N)
    (hLN : N ≤ L) :
    ∀ k i f c, N - i = k → f.length = N → c + i = L → i ≤ N →
      (∀ j, j < i → f.getD j false = true) →
      ∀ j, j < N → (fill_loop N L rng i (f, c)).1.getD j false = true := by
  intro k
  induction k with
  | zero =>
    intro i f c hk hlen hc hiN hpre j hj
    rw [fill_loop, dif_neg (by omega)]
    exact hpre j (by omega)
  | succ m ih =>
    intro i f c hk hlen hc hiN hpre j hj
    rw [fill_loop, dif_pos (by omega : i < N)]
    have hcond : (decide (c > 0) &&
        (decide (N - (i + 1) = c) || decide (rng i % N < L))) = true := by
      simp only [Bool.and_eq_true, Bool.or_eq_true, decide_eq_true_eq,
        gt_iff_lt]
      constructor
      · omega
      · right
        exact Nat.lt_of_lt_of_le (Nat.mod_lt _ hN) hLN
    rw [if_pos hcond]
    refine ih (i + 1) (f.set i true) (c - 1) (by omega)
      (by rw [List.length_set]; exact hlen) (by omega) (by omega) ?_ j hj
    intro j2 hj2
    by_cases hj2i : j2 = i
    · subst hj2i
      exact getD_set_self f j2 true (by omega)
    · rw [getD_set_ne f i j2 true (fun hh2 => hj2i hh2.symm)]
      exact hpre j2 (by omega)

/-- C7: for positive width and height and any stream of random draws,
fill_game_field produces a grid of width * height cells with exactly
liveCells true entries when liveCells is at most the grid size, and with
every cell true when liveCells is at least the grid size. -/
theorem fill_game_field_spec (w h L : Nat) (rng : Nat → Nat)
    (hw : 0 < w) (hh : 0 < h) :
    (fill_game_field w h L rng).length = w * h ∧
    (L ≤ w * h → (fill_game_field w h L rng).count true = L) ∧
    (w * h ≤ L → fill_game_field w h L rng = List.replicate (w * h) true) := by
  have hN : 0 < w * h := Nat.mul_pos hw hh
  have hlen : (fill_game_field w h L rng).length = w * h := by
    rw [fill_game_field, fill_loop_length (w * h) L rng (w * h) 0 _ L (by omega)]
    exact List.length_replicate (w * h) false
  have hall : w * h ≤ L → fill_game_field w h L rng =
      List.replicate (w * h) true := by
    intro hL
    have h1 : ∀ j, j < w * h →
        (fill_game_field w h L rng).getD j false = true := by
      intro j hj
      rw [fill_game_field]
      exact fill_loop_all (w * h) L rng hN hL (w * h) 0 _ L (by omega)
        (List.length_replicate (w * h) false) (by omega) (by omega)
        (fun j2 hj2 => absurd hj2 (Nat.not_lt_zero j2)) j hj
    refine List.eq_replicate_iff.mpr ⟨hlen, ?_⟩
    intro b hb
    obtain ⟨j, hj, hjb⟩ := List.getElem_of_mem hb
    rw [← hjb, ← getD_eq_getElem _ j hj]
    exact h1 j (by omega)
  refine ⟨hlen, ?_, hall⟩
  intro hL
  by_cases hLlt : L < w * h
  · rw [fill_game_field, fill_loop_count (w * h) L rng (w * h) 0 _ L (by omega)
      (List.length_replicate (w * h) false)
      (fun j _ => getD_replicate_false (w * h) j) (by omega)]
    simp [List.count_replicate]
  · have hEq : w * h = L := by omega
    rw [hall (by omega), hEq]
    exact List.count_replicate_self true L

/-- The slice a worker sends back is exactly the computePartition contract
value: the next states of its own cells in order. -/
theorem worker_result_eq (pd : ProcInfo) (last : List Bool) (w h N : Nat)
    (hfit : pd.offset + pd.num_cells ≤ N) :
    worker_result pd last w h N = computePartition pd last w h := by
  have hlen : (apply_rules pd last (List.replicate N false) w h).length = N := by
    rw [apply_rules_length, List.length_replicate]
  apply List.ext_getElem
  · simp only [worker_result, computePartition, List.length_take,
      List.length_drop, List.length_map, List.length_range, hlen]
    omega
  · intro k h1 h2
    have hk : k < pd.num_cells := by
      simpa [computePartition] using h2
    have hoff : pd.offset + k < N := by omega
    simp only [worker_result, computePartition, List.getElem_take,
      List.getElem_drop, List.getElem_map, List.getElem_range]
    rw [← getD_eq_getElem _ (pd.offset + k) (by omega)]
    rw [apply_rules_getD, if_pos
      ⟨by omega, by omega, by rw [List.length_replicate]; omega⟩]

/-- The slice a worker sends back has exactly its partition's cell count. -/
theorem worker_result_length (pd : ProcInfo) (last : List Bool) (w h N : Nat)
    (hfit : pd.offset + pd.num_cells ≤ N) :
    (worker_result pd last w h N).length = pd.num_cells := by
  rw [worker_result_eq pd last w h N hfit]
  simp [computePartition]

/-- Reading one cell of the sent slice gives the next state of the
corresponding cell of the worker's range. -/
theorem worker_result_getD (pd : ProcInfo) (last : List Bool) (w h N k : Nat)
    (hfit : pd.offset + pd.num_cells ≤ N) (hk : k < pd.num_cells) :
    (worker_result pd last w h N).getD k false =
      nextState (pd.offset + k) last w h := by
  rw [worker_result_eq pd last w h N hfit, computePartition,
    getD_map_range pd.num_cells _ k hk]

/-- The merge fold preserves the length of the grid buffer. -/
theorem merge_fold_length (last : List Bool) (w h N : Nat) :
    ∀ (parts : List ProcInfo) (b : List Bool),
      (parts.foldl
        (fun buf pd => writeRange buf pd.offset (worker_result pd last w h N))
        b).length = b.length := by
  intro parts
  induction parts with
  | nil => intro b; rfl
  | cons pd t ih =>
    intro b
    rw [List.foldl_cons, ih, writeRange_length]

/-- Reading the merged grid: a cell covered by some partition of the list
holds its next state, any other cell keeps the initial buffer value. -/
theorem merge_fold_getD (last : List Bool) (w h N j : Nat) :
    ∀ (parts : List ProcInfo) (b : List Bool), b.length = N → j < N →
      (∀ pd ∈ parts, pd.offset + pd.num_cells ≤ N) →
      (parts.foldl
        (fun buf pd => writeRange buf pd.offset (worker_result pd last w h N))
        b).getD j false =
      if parts.any
          (fun pd => decide (pd.offset ≤ j ∧ j < pd.offset + pd.num_cells)) then
        nextState j last w h
      else b.getD j false := by
  intro parts
  induction parts with
  | nil =>
    intro b hb hj hfit
    simp
  | cons pd t ih =>
    intro b hb hj hfit
    rw [List.foldl_cons,
      ih (writeRange b pd.offset (worker_result pd last w h N))
        (by rw [writeRange_length]; exact hb) hj
        (fun q hq => hfit q (List.mem_cons_of_mem _ hq)),
      List.any_cons]
    have hfitpd : pd.offset + pd.num_cells ≤ N := hfit pd (List.mem_cons_self _ _)
    have hwlen : (worker_result pd last w h N).length = pd.num_cells :=
      worker_result_length pd last w h N hfitpd
    by_cases hcov : t.any
        (fun q => decide (q.offset ≤ j ∧ j < q.offset + q.num_cells)) = true
    · rw [hcov, Bool.or_true, if_pos rfl, if_pos rfl]
    · rw [Bool.not_eq_true] at hcov
      rw [hcov, Bool.or_false, if_neg (by simp : ¬(false = true))]
      by_cases hpd : pd.offset ≤ j ∧ j < pd.offset + pd.num_cells
      · rw [if_pos (by simpa using hpd),
          writeRange_getD, if_pos ⟨hpd.1, by omega, by omega⟩,
          worker_result_getD pd last w h N (j - pd.offset) hfitpd (by omega)]
        congr 1
        omega
      · rw [if_neg (by simpa using hpd),
          writeRange_getD, if_neg (by rw [hwlen]; omega)]

/-- One loop of the range-coverage count: index j is covered by exactly one
of the first m equal partitions when it lies below their common end. -/
theorem range_partition_countP (base m j : Nat) :
    (List.range m).countP
        (fun k => decide (k * base ≤ j ∧ j < k * base + base)) =
      if j < m * base then 1 else 0 := by
  induction m with
  | zero => simp
  | succ n ih =>
    rw [List.range_succ, List.countP_append, ih]
    have hsm : (n + 1) * base = n * base + base := by ring
    by_cases h1 : j < n * base
    · rw [if_pos h1, if_pos (by omega)]
      have h2 : ¬(n * base ≤ j ∧ j < n * base + base) := by omega
      simp [List.countP_cons, h2]
    · rw [if_neg h1]
      by_cases h2 : n * base ≤ j ∧ j < n * base + base
      · rw [if_pos (by omega)]
        simp [List.countP_cons, h2]
      · rw [if_neg (by omega)]
        simp [List.countP_cons, h2]

/-- Every in-range cell index lies in exactly one partition of the table. -/
theorem partition_covers_once (N W j : Nat) (hW : 1 ≤ W) (hj : j < N) :
    (partition N W).countP
      (fun pd => decide (pd.offset ≤ j ∧ j < pd.offset + pd.num_cells)) = 1 := by
  unfold partition
  rw [List.countP_append, List.countP_map]
  have h1 : (List.range (W - 1)).countP
      ((fun pd : ProcInfo => decide (pd.offset ≤ j ∧ j < pd.offset + pd.num_cells)) ∘
        fun i => (⟨i * (N / W), N / W⟩ : ProcInfo)) =
      (List.range (W - 1)).countP
        (fun k => decide (k * (N / W) ≤ j ∧ j < k * (N / W) + (N / W))) := rfl
  rw [h1, range_partition_countP]
  have hkey := partition_last_end N W hW
  have hcomm : (N / W) * (W - 1) = (W - 1) * (N / W) := Nat.mul_comm _ _
  by_cases h2 : j < (W - 1) * (N / W)
  · rw [if_pos h2]
    have h3 : ¬((N / W) * (W - 1) ≤ j ∧
        j < (N / W) * (W - 1) + (N / W + N % W)) := by omega
    simp [List.countP_cons, h3]
  · rw [if_neg h2]
    have h3 : (N / W) * (W - 1) ≤ j ∧
        j < (N / W) * (W - 1) + (N / W + N % W) := by omega
    simp [List.countP_cons, h3]

/-- C1: for every previous grid and every worker count at least one, the
distributed generation (every worker computing its partition from the same
previous grid, the coordinator splicing the returned ranges into the next
grid) writes every cell index of the next grid through exactly one
partition, and the merged next grid agrees with the sequential reference
nextState at every cell: the distributed computation refines the
single-process one. -/
theorem distributed_refines_sequential (prev : List Bool) (w h W : Nat)
    (hW : 1 ≤ W) :
    (∀ j, j < w * h →
      (partition (w * h) W).countP
        (fun pd => decide (pd.offset ≤ j ∧ j < pd.offset + pd.num_cells)) = 1) ∧
    (distributed_generation (partition (w * h) W) prev w h (w * h)).length =
      w * h ∧
    (∀ j, j < w * h →
      (distributed_generation (partition (w * h) W) prev w h (w * h)).getD j
          false =
        nextState j prev w h) := by
  refine ⟨fun j hj => partition_covers_once (w * h) W j hW hj, ?_, fun j hj => ?_⟩
  · rw [distributed_generation, merge_fold_length, List.length_replicate]
  · rw [distributed_generation, merge_fold_getD prev w h (w * h) j
      (partition (w * h) W) (List.replicate (w * h) false)
      (List.length_replicate _ _) hj (partition_fits (w * h) W hW)]
    have hcov : (partition (w * h) W).any
        (fun pd => decide (pd.offset ≤ j ∧ j < pd.offset + pd.num_cells)) =
        true := by
      have h1 : 0 < (partition (w * h) W).countP
          (fun pd => decide (pd.offset ≤ j ∧ j < pd.offset + pd.num_cells)) := by
        rw [partition_covers_once (w * h) W j hW hj]
        omega
      obtain ⟨pd, hpd, hp⟩ := List.countP_pos_iff.mp h1
      exact List.any_eq_true.mpr ⟨pd, hpd, hp⟩
    rw [if_pos hcov]

/-- Witness for C1: three workers on a 2 by 3 grid holding a vertical pair
of live columns. -/
theorem distributed_refines_sequential_witness :
    1 ≤ 3 ∧
    ((∀ j, j < 2 * 3 →
      (partition (2 * 3) 3).countP
        (fun pd => decide (pd.offset ≤ j ∧ j < pd.offset + pd.num_cells)) = 1) ∧
    (distributed_generation (partition (2 * 3) 3)
        [true, true, true, true, false, false] 2 3 (2 * 3)).length = 2 * 3 ∧
    (∀ j, j < 2 * 3 →
      (distributed_generation (partition (2 * 3) 3)
          [true, true, true, true, false, false] 2 3 (2 * 3)).getD j false =
        nextState j [true, true, true, true, false, false] 2 3)) :=
  ⟨by decide,
    distributed_refines_sequential [true, true, true, true, false, false] 2 3 3
      (by decide)⟩

/-- One neighbour term of the counting loop, in the regular case: when the
candidate of offset o decomposes as row r2 and column c2 with an in-range
column whose distance from the cell's column is at most one, the term is
the coordinate-level neighbour indicator at (r2, c2). -/
theorem term_general (g : List Bool) (w h r c : Nat) (o r2 c2 : Int)
    (hc : c < w)
    (hn : ((r * w + c : Nat) : Int) + o = r2 * (w : Int) + c2)
    (hc2a : 0 ≤ c2) (hc2b : c2 < (w : Int))
    (hdiff : ((c : Int) - c2).natAbs ≤ 1) :
    (if countedAsLive g w h (r * w + c) o then 1 else 0) = nb g w h r2 c2 := by
  have hcell : ((r * w + c : Nat) : Int) % (w : Int) = (c : Int) := by
    push_cast
    exact emod_row_col (r : Int) (c : Int) (w : Int) (by positivity)
      (by exact_mod_cast hc)
  have hrange := range_row_col r2 c2 (w : Int) (h : Int) hc2a hc2b
  have hcond : (countedAsLive g w h (r * w + c) o = true) ↔
      (0 ≤ r2 ∧ r2 < (h : Int) ∧ 0 ≤ c2 ∧ c2 < (w : Int) ∧
        g.getD (r2 * (w : Int) + c2).toNat false = true) := by
    unfold countedAsLive checksPass
    simp only [Bool.and_eq_true, decide_eq_true_eq]
    rw [hn, emod_row_col r2 c2 _ hc2a hc2b, hcell]
    constructor
    · rintro ⟨⟨⟨h1, h2⟩, -⟩, h4⟩
      exact ⟨hrange.1.mp h1, hrange.2.mp h2, hc2a, hc2b, h4⟩
    · rintro ⟨h1, h2, -, -, h5⟩
      exact ⟨⟨⟨hrange.1.mpr h1, hrange.2.mpr h2⟩, hdiff⟩, h5⟩
  rw [nb]
  exact if_congr hcond rfl rfl

/-- One neighbour term of the counting loop, in the rejected case: when the
candidate of offset o decomposes as a column at distance at least two from
the cell's column, the boundary check fails and the term is zero. -/
theorem term_reject (g : List Bool) (w h r c : Nat) (o r2 c2 : Int)
    (hc : c < w)
    (hn : ((r * w + c : Nat) : Int) + o = r2 * (w : Int) + c2)
    (hc2a : 0 ≤ c2) (hc2b : c2 < (w : Int))
    (hdiff : 2 ≤ ((c : Int) - c2).natAbs) :
    (if countedAsLive g w h (r * w + c) o then 1 else 0) = 0 := by
  have hcell : ((r * w + c : Nat) : Int) % (w : Int) = (c : Int) := by
    push_cast
    exact emod_row_col (r : Int) (c : Int) (w : Int) (by positivity)
      (by exact_mod_cast hc)
  rw [if_neg]
  unfold countedAsLive checksPass
  simp only [Bool.and_eq_true, decide_eq_true_eq]
  rw [hn, emod_row_col r2 c2 _ hc2a hc2b, hcell]
  rintro ⟨⟨⟨-, -⟩, h3⟩, -⟩
  omega

/-- The neighbour count is the sum of the eight offset terms. -/
theorem alive_adj_cells_expand (last : List Bool) (w h cell : Nat) :
    alive_adj_cells last w h cell =
      (if countedAsLive last w h cell (-((w : Int) + 1)) then 1 else 0) +
      (if countedAsLive last w h cell (-(w : Int)) then 1 else 0) +
      (if countedAsLive last w h cell (-((w : Int) - 1)) then 1 else 0) +
      (if countedAsLive last w h cell (-1) then 1 else 0) +
      (if countedAsLive last w h cell 1 then 1 else 0) +
      (if countedAsLive last w h cell ((w : Int) - 1) then 1 else 0) +
      (if countedAsLive last w h cell (w : Int) then 1 else 0) +
      (if countedAsLive last w h cell ((w : Int) + 1) then 1 else 0) := by
  rw [alive_adj_cells, adjacency_offsets]
  simp only [List.countP_cons, List.countP_nil]
  omega

/-- The up-left offset -(w + 1) reaches (r - 1, c - 1). -/
theorem term_up_left (g : List Bool) (w h r c : Nat) (hw : 3 ≤ w) (hc : c < w) :
    (if countedAsLive g w h (r * w + c) (-((w : Int) + 1)) then 1 else 0) =
      nb g w h ((r : Int) - 1) ((c : Int) - 1) := by
  by_cases hc0 : c = 0
  · subst hc0
    rw [term_reject g w h r 0 _ ((r : Int) - 2) ((w : Int) - 1) hc
      (by push_cast; ring) (by omega) (by omega) (by omega)]
    rw [nb, if_neg]
    rintro ⟨-, -, h4, -, -⟩
    omega
  · exact term_general g w h r c _ ((r : Int) - 1) ((c : Int) - 1) hc
      (by push_cast; ring) (by omega) (by omega) (by omega)

/-- The up offset -w reaches (r - 1, c). -/
theorem term_up (g : List Bool) (w h r c : Nat) (hw : 3 ≤ w) (hc : c < w) :
    (if countedAsLive g w h (r * w + c) (-(w : Int)) then 1 else 0) =
      nb g w h ((r : Int) - 1) (c : Int) :=
  term_general g w h r c _ ((r : Int) - 1) (c : Int) hc
    (by push_cast; ring) (by omega) (by omega) (by omega)

/-- The up-right offset -(w - 1) reaches (r - 1, c + 1). -/
theorem term_up_right (g : List Bool) (w h r c : Nat) (hw : 3 ≤ w) (hc : c < w) :
    (if countedAsLive g w h (r * w + c) (-((w : Int) - 1)) then 1 else 0) =
      nb g w h ((r : Int) - 1) ((c : Int) + 1) := by
  by_cases hc1 : c = w - 1
  · subst hc1
    rw [term_reject g w h r (w - 1) _ (r : Int) 0 (by omega)
      (by push_cast; ring_nf; omega) (by omega) (by omega) (by omega)]
    rw [nb, if_neg]
    rintro ⟨-, -, -, h4, -⟩
    omega
  · exact term_general g w h r c _ ((r : Int) - 1) ((c : Int) + 1) hc
      (by push_cast; ring) (by omega) (by omega) (by omega)

/-- The left offset -1 reaches (r, c - 1). -/
theorem term_left (g : List Bool) (w h r c : Nat) (hw : 3 ≤ w) (hc : c < w) :
    (if countedAsLive g w h (r * w + c) (-1) then 1 else 0) =
      nb g w h (r : Int) ((c : Int) - 1) := by
  by_cases hc0 : c = 0
  · subst hc0
    rw [term_reject g w h r 0 _ ((r : Int) - 1) ((w : Int) - 1) hc
      (by push_cast; ring) (by omega) (by omega) (by omega)]
    rw [nb, if_neg]
    rintro ⟨-, -, h4, -, -⟩
    omega
  · exact term_general g w h r c _ (r : Int) ((c : Int) - 1) hc
      (by push_cast; ring) (by omega) (by omega) (by omega)

/-- The right offset 1 reaches (r, c + 1). -/
theorem term_right (g : List Bool) (w h r c : Nat) (hw : 3 ≤ w) (hc : c < w) :
    (if countedAsLive g w h (r * w + c) 1 then 1 else 0) =
      nb g w h (r : Int) ((c : Int) + 1) := by
  by_cases hc1 : c = w - 1
  · subst hc1
    rw [term_reject g w h r (w - 1) _ ((r : Int) + 1) 0 (by omega)
      (by push_cast; ring_nf; omega) (by omega) (by omega) (by omega)]
    rw [nb, if_neg]
    rintro ⟨-, -, -, h4, -⟩
    omega
  · exact term_general g w h r c _ (r : Int) ((c : Int) + 1) hc
      (by push_cast; ring) (by omega) (by omega) (by omega)

/-- The down-left offset w - 1 reaches (r + 1, c - 1). -/
theorem term_down_left (g : List Bool) (w h r c : Nat) (hw : 3 ≤ w)
    (hc : c < w) :
    (if countedAsLive g w h (r * w + c) ((w : Int) - 1) then 1 else 0) =
      nb g w h ((r : Int) + 1) ((c : Int) - 1) := by
  by_cases hc0 : c = 0
  · subst hc0
    rw [term_reject g w h r 0 _ (r : Int) ((w : Int) - 1) hc
      (by push_cast; ring) (by omega) (by omega) (by omega)]
    rw [nb, if_neg]
    rintro ⟨-, -, h4, -, -⟩
    omega
  · exact term_general g w h r c _ ((r : Int) + 1) ((c : Int) - 1) hc
      (by push_cast; ring) (by omega) (by omega) (by omega)

/-- The down offset w reaches (r + 1, c). -/
theorem term_down (g : List Bool) (w h r c : Nat) (hw : 3 ≤ w) (hc : c < w) :
    (if countedAsLive g w h (r * w + c) (w : Int) then 1 else 0) =
      nb g w h ((r : Int) + 1) (c : Int) :=
  term_general g w h r c _ ((r : Int) + 1) (c : Int) hc
    (by push_cast; ring) (by omega) (by omega) (by omega)

/-- The down-right offset w + 1 reaches (r + 1, c + 1). -/
theorem term_down_right (g : List Bool) (w h r c : Nat) (hw : 3 ≤ w)
    (hc : c < w) :
    (if countedAsLive g w h (r * w + c) ((w : Int) + 1) then 1 else 0) =
      nb g w h ((r : Int) + 1) ((c : Int) + 1) := by
  by_cases hc1 : c = w - 1
  · subst hc1
    rw [term_reject g w h r (w - 1) _ ((r : Int) + 2) 0 (by omega)
      (by push_cast; ring_nf; omega) (by omega) (by omega) (by omega)]
    rw [nb, if_neg]
    rintro ⟨-, -, -, h4, -⟩
    omega
  · exact term_general g w h r c _ ((r : Int) + 1) ((c : Int) + 1) hc
      (by push_cast; ring) (by omega) (by omega) (by omega)

/-- For width at least three, the neighbour count of the cell at row r and
column c is the sum of the eight coordinate-level neighbour indicators. -/
theorem alive_adj_cells_coord (g : List Bool) (w h r c : Nat) (hw : 3 ≤ w)
    (hc : c < w) :
    alive_adj_cells g w h (r * w + c) =
      nb g w h ((r : Int) - 1) ((c : Int) - 1) +
      nb g w h ((r : Int) - 1) (c : Int) +
      nb g w h ((r : Int) - 1) ((c : Int) + 1) +
      nb g w h (r : Int) ((c : Int) - 1) +
      nb g w h (r : Int) ((c : Int) + 1) +
      nb g w h ((r : Int) + 1) ((c : Int) - 1) +
      nb g w h ((r : Int) + 1) (c : Int) +
      nb g w h ((r : Int) + 1) ((c : Int) + 1) := by
  rw [alive_adj_cells_expand, term_up_left g w h r c hw hc,
    term_up g w h r c hw hc, term_up_right g w h r c hw hc,
    term_left g w h r c hw hc, term_right g w h r c hw hc,
    term_down_left g w h r c hw hc, term_down g w h r c hw hc,
    term_down_right g w h r c hw hc]

/-- A coordinate-level neighbour indicator ignores writes to any cell
other than the one it reads. -/
theorem nb_set_ne (g : List Bool) (src : Nat) (b : Bool) (w h : Nat)
    (r c : Int)
    (hne : 0 ≤ r → r < (h : Int) → 0 ≤ c → c < (w : Int) →
      (r * (w : Int) + c).toNat ≠ src) :
    nb (g.set src b) w h r c = nb g w h r c := by
  unfold nb
  by_cases hb : 0 ≤ r ∧ r < (h : Int) ∧ 0 ≤ c ∧ c < (w : Int)
  · have hge := getD_set_ne g src (r * (w : Int) + c).toNat b
      (fun heq => hne hb.1 hb.2.1 hb.2.2.1 hb.2.2.2 heq.symm)
    rw [hge]
  · rw [if_neg (fun hcon => hb ⟨hcon.1, hcon.2.1, hcon.2.2.1, hcon.2.2.2.1⟩),
      if_neg (fun hcon => hb ⟨hcon.1, hcon.2.1, hcon.2.2.1, hcon.2.2.2.1⟩)]

/-- A coordinate-level neighbour indicator ignores a write at a cell whose
coordinates differ from the ones it reads. -/
theorem nb_set_src (g : List Bool) (b : Bool) (w h : Nat) (r2 c2 : Int)
    (src rs cs : Nat) (hsrc : src = rs * w + cs) (hcs : cs < w)
    (hne : ¬(r2 = (rs : Int) ∧ c2 = (cs : Int))) :
    nb (g.set src b) w h r2 c2 = nb g w h r2 c2 := by
  apply nb_set_ne
  intro h1 h2 h3 h4 heq
  have hnn : 0 ≤ r2 * (w : Int) + c2 :=
    add_nonneg (mul_nonneg h1 (by positivity)) h3
  have hInt : r2 * (w : Int) + c2 = (rs : Int) * (w : Int) + (cs : Int) := by
    have hcast := congrArg (Nat.cast : Nat → Int) heq
    rw [Int.toNat_of_nonneg hnn] at hcast
    rw [hcast, hsrc]
    push_cast
    ring
  exact hne ((index_eq_iff r2 c2 (rs : Int) (cs : Int) (w : Int) h3 h4
    (by positivity) (by exact_mod_cast hcs)).mp hInt)

/-- C4 counterexample: at width two (where column 0 and column width - 1
are genuinely adjacent) and at width one (where the offset table contains
zero), the live cell at column 0 DOES contribute to the neighbour count of
the cell at column width - 1 of the same row: clearing it changes the
count.  The claim quantifies over every grid, so it fails on these. -/
theorem horizontal_wrap_small_width :
    alive_adj_cells [true, true] 2 1 1 = 2 ∧
    alive_adj_cells ([true, true].set 0 false) 2 1 1 = 0 ∧
    alive_adj_cells [true] 1 1 0 = 2 ∧
    alive_adj_cells ([true].set 0 false) 1 1 0 = 0 := by decide

/-- C4 amended: for every grid of width at least three, the state of the
cell at column 0 of a row never influences the neighbour count of the cell
at column width - 1 of the same row, and vice versa: no horizontal
wraparound. -/
theorem no_horizontal_wraparound (g : List Bool) (w h r : Nat)
    (hw : 3 ≤ w) (hr : r < h) :
    alive_adj_cells (g.set (r * w) false) w h (r * w + (w - 1)) =
      alive_adj_cells g w h (r * w + (w - 1)) ∧
    alive_adj_cells (g.set (r * w + (w - 1)) false) w h (r * w) =
      alive_adj_cells g w h (r * w) := by
  constructor
  · rw [alive_adj_cells_coord (g.set (r * w) false) w h r (w - 1) hw (by omega),
      alive_adj_cells_coord g w h r (w - 1) hw (by omega)]
    rw [nb_set_src g false w h ((r : Int) - 1) ((((w : Nat) - 1 : Nat) : Int) - 1)
        (r * w) r 0 (by ring) (by omega) (by rintro ⟨-, h2⟩; omega),
      nb_set_src g false w h ((r : Int) - 1) (((w : Nat) - 1 : Nat) : Int)
        (r * w) r 0 (by ring) (by omega) (by rintro ⟨-, h2⟩; omega),
      nb_set_src g false w h ((r : Int) - 1) ((((w : Nat) - 1 : Nat) : Int) + 1)
        (r * w) r 0 (by ring) (by omega) (by rintro ⟨-, h2⟩; omega),
      nb_set_src g false w h (r : Int) ((((w : Nat) - 1 : Nat) : Int) - 1)
        (r * w) r 0 (by ring) (by omega) (by rintro ⟨-, h2⟩; omega),
      nb_set_src g false w h (r : Int) ((((w : Nat) - 1 : Nat) : Int) + 1)
        (r * w) r 0 (by ring) (by omega) (by rintro ⟨-, h2⟩; omega),
      nb_set_src g false w h ((r : Int) + 1) ((((w : Nat) - 1 : Nat) : Int) - 1)
        (r * w) r 0 (by ring) (by omega) (by rintro ⟨-, h2⟩; omega),
      nb_set_src g false w h ((r : Int) + 1) (((w : Nat) - 1 : Nat) : Int)
        (r * w) r 0 (by ring) (by omega) (by rintro ⟨-, h2⟩; omega),
      nb_set_src g false w h ((r : Int) + 1) ((((w : Nat) - 1 : Nat) : Int) + 1)
        (r * w) r 0 (by ring) (by omega) (by rintro ⟨-, h2⟩; omega)]
  · have hcoord1 := alive_adj_cells_coord (g.set (r * w + (w - 1)) false) w h
      r 0 hw (by omega)
    have hcoord2 := alive_adj_cells_coord g w h r 0 hw (by omega)
    rw [Nat.add_zero] at hcoord1 hcoord2
    rw [hcoord1, hcoord2]
    rw [nb_set_src g false w h ((r : Int) - 1) (((0 : Nat) : Int) - 1)
        (r * w + (w - 1)) r (w - 1) rfl (by omega) (by rintro ⟨-, h2⟩; omega),
      nb_set_src g false w h ((r : Int) - 1) ((0 : Nat) : Int)
        (r * w + (w - 1)) r (w - 1) rfl (by omega) (by rintro ⟨-, h2⟩; omega),
      nb_set_src g false w h ((r : Int) - 1) (((0 : Nat) : Int) + 1)
        (r * w + (w - 1)) r (w - 1) rfl (by omega) (by rintro ⟨-, h2⟩; omega),
      nb_set_src g false w h (r : Int) (((0 : Nat) : Int) - 1)
        (r * w + (w - 1)) r (w - 1) rfl (by omega) (by rintro ⟨-, h2⟩; omega),
      nb_set_src g false w h (r : Int) (((0 : Nat) : Int) + 1)
        (r * w + (w - 1)) r (w - 1) rfl (by omega) (by rintro ⟨-, h2⟩; omega),
      nb_set_src g false w h ((r : Int) + 1) (((0 : Nat) : Int) - 1)
        (r * w + (w - 1)) r (w - 1) rfl (by omega) (by rintro ⟨-, h2⟩; omega),
      nb_set_src g false w h ((r : Int) + 1) ((0 : Nat) : Int)
        (r * w + (w - 1)) r (w - 1) rfl (by omega) (by rintro ⟨-, h2⟩; omega),
      nb_set_src g false w h ((r : Int) + 1) (((0 : Nat) : Int) + 1)
        (r * w + (w - 1)) r (w - 1) rfl (by omega) (by rintro ⟨-, h2⟩; omega)]

/-- Witness for C4 amended on a 3 by 1 grid with both edge cells live. -/
theorem no_horizontal_wraparound_witness :
    (3 ≤ 3 ∧ 0 < 1) ∧
    (alive_adj_cells ([true, false, true].set (0 * 3) false) 3 1
        (0 * 3 + (3 - 1)) =
      alive_adj_cells [true, false, true] 3 1 (0 * 3 + (3 - 1)) ∧
    alive_adj_cells ([true, false, true].set (0 * 3 + (3 - 1)) false) 3 1
        (0 * 3) =
      alive_adj_cells [true, false, true] 3 1 (0 * 3)) :=
  ⟨⟨by decide, by decide⟩,
    no_horizontal_wraparound [true, false, true] 3 1 0 (by decide) (by decide)⟩

/-- Both boundary checks and the true-neighbour relation agree in the
regular case: when the candidate of offset o decomposes as (r2, c2) with an
in-range column at distance at most one, a row at distance at most one and
different coordinates, both reduce to the candidate row being in range. -/
theorem checks_general (w h r c : Nat) (o r2 c2 : Int) (hc : c < w)
    (hn : ((r * w + c : Nat) : Int) + o = r2 * (w : Int) + c2)
    (hc2a : 0 ≤ c2) (hc2b : c2 < (w : Int))
    (hdiff : ((c : Int) - c2).natAbs ≤ 1)
    (hrow : ((r : Int) - r2).natAbs ≤ 1)
    (hne : ¬(r2 = (r : Int) ∧ c2 = (c : Int))) :
    (checksPass w h (r * w + c) o = true ↔
      is_grid_neighbor w h (r * w + c) (((r * w + c : Nat) : Int) + o)) := by
  have hcellmod : ((r * w + c : Nat) : Int) % (w : Int) = (c : Int) := by
    push_cast
    exact emod_row_col (r : Int) (c : Int) (w : Int) (by positivity)
      (by exact_mod_cast hc)
  have hcelldiv : ((r * w + c : Nat) : Int) / (w : Int) = (r : Int) := by
    push_cast
    exact ediv_row_col (r : Int) (c : Int) (w : Int) (by positivity)
      (by exact_mod_cast hc)
  have hrange := range_row_col r2 c2 (w : Int) (h : Int) hc2a hc2b
  have hneq : r2 * (w : Int) + c2 ≠ ((r * w + c : Nat) : Int) := by
    intro heq
    apply hne
    apply (index_eq_iff r2 c2 (r : Int) (c : Int) (w : Int) hc2a hc2b
      (by positivity) (by exact_mod_cast hc)).mp
    rw [heq]
    push_cast
    ring
  unfold checksPass is_grid_neighbor
  simp only [Bool.and_eq_true, decide_eq_true_eq]
  rw [hn, emod_row_col r2 c2 _ hc2a hc2b, ediv_row_col r2 c2 _ hc2a hc2b,
    hcellmod, hcelldiv]
  constructor
  · rintro ⟨⟨h1, h2⟩, -⟩
    exact ⟨h1, h2, hneq, hrow, hdiff⟩
  · rintro ⟨h1, h2, -, -, -⟩
    exact ⟨⟨h1, h2⟩, hdiff⟩

/-- Both boundary checks and the true-neighbour relation agree in the
rejected case: a candidate whose column lies at distance at least two from
the cell's column passes neither. -/
theorem checks_reject (w h r c : Nat) (o r2 c2 : Int) (hc : c < w)
    (hn : ((r * w + c : Nat) : Int) + o = r2 * (w : Int) + c2)
    (hc2a : 0 ≤ c2) (hc2b : c2 < (w : Int))
    (hdiff : 2 ≤ ((c : Int) - c2).natAbs) :
    ¬(checksPass w h (r * w + c) o = true) ∧
      ¬is_grid_neighbor w h (r * w + c) (((r * w + c : Nat) : Int) + o) := by
  have hcellmod : ((r * w + c : Nat) : Int) % (w : Int) = (c : Int) := by
    push_cast
    exact emod_row_col (r : Int) (c : Int) (w : Int) (by positivity)
      (by exact_mod_cast hc)
  constructor
  · unfold checksPass
    simp only [Bool.and_eq_true, decide_eq_true_eq]
    rw [hn, emod_row_col r2 c2 _ hc2a hc2b, hcellmod]
    rintro ⟨⟨-, -⟩, h3⟩
    omega
  · unfold is_grid_neighbor
    rw [hn, emod_row_col r2 c2 _ hc2a hc2b, hcellmod]
    rintro ⟨-, -, -, -, h5⟩
    omega

/-- C10: for width at least three the eight adjacency offsets are pairwise
distinct and nonzero and a candidate cell + offset passes the two boundary
checks exactly when it is a true grid neighbour of the cell (row and column
each differing by at most one, not the cell itself); for width one the
table contains zero and repeats, for width two it repeats, so a cell's own
state or a single neighbour is counted more than once (at width one a lone
live cell gets neighbour count two from itself, and a cell of a live
column of three gets count six instead of two). -/
theorem adjacency_offsets_characterization (w h cell : Nat) (o : Int)
    (hw : 3 ≤ w) (hcell : cell < w * h) (ho : o ∈ adjacency_offsets w) :
    ((adjacency_offsets w).Nodup ∧ (0 : Int) ∉ adjacency_offsets w) ∧
    (checksPass w h cell o = true ↔
      is_grid_neighbor w h cell ((cell : Int) + o)) ∧
    ((0 : Int) ∈ adjacency_offsets 1 ∧ ¬(adjacency_offsets 1).Nodup ∧
      ¬(adjacency_offsets 2).Nodup ∧
      alive_adj_cells [true] 1 1 0 = 2 ∧
      alive_adj_cells [true, true, true] 1 3 1 = 6) := by
  refine ⟨⟨?_, ?_⟩, ?_, by decide, by decide, by decide, by decide, by decide⟩
  · simp only [adjacency_offsets, List.nodup_cons, List.mem_cons,
      List.mem_singleton, List.not_mem_nil, or_false, List.nodup_nil,
      not_false_eq_true, and_true]
    push_neg
    omega
  · simp only [adjacency_offsets, List.mem_cons, List.mem_singleton,
      List.not_mem_nil, or_false]
    omega
  · obtain ⟨r, c, hc, hrh, rfl⟩ :
        ∃ r c, c < w ∧ r < h ∧ cell = r * w + c := by
      refine ⟨cell / w, cell % w, Nat.mod_lt _ (by omega), ?_, ?_⟩
      · have h1 := Nat.div_add_mod cell w
        rw [Nat.mul_comm] at h1
        by_contra hcon
        push_neg at hcon
        have h2 : h * w ≤ (cell / w) * w := Nat.mul_le_mul_right _ hcon
        have h3 : h * w = w * h := Nat.mul_comm _ _
        omega
      · have h1 := Nat.div_add_mod cell w
        rw [Nat.mul_comm] at h1
        omega
    simp only [adjacency_offsets, List.mem_cons, List.mem_singleton,
      List.not_mem_nil, or_false] at ho
    rcases ho with rfl | rfl | rfl | rfl | rfl | rfl | rfl | rfl
    · by_cases hc0 : c = 0
      · subst hc0
        have hr := checks_reject w h r 0 (-((w : Int) + 1)) ((r : Int) - 2)
          ((w : Int) - 1) hc (by push_cast; ring) (by omega) (by omega)
          (by omega)
        exact iff_of_false hr.1 hr.2
      · exact checks_general w h r c _ ((r : Int) - 1) ((c : Int) - 1) hc
          (by push_cast; ring) (by omega) (by omega) (by omega) (by omega)
          (by rintro ⟨h1, -⟩; omega)
    · exact checks_general w h r c _ ((r : Int) - 1) (c : Int) hc
        (by push_cast; ring) (by omega) (by omega) (by omega) (by omega)
        (by rintro ⟨h1, -⟩; omega)
    · by_cases hc1 : c = w - 1
      · subst hc1
        have hr := checks_reject w h r (w - 1) (-((w : Int) - 1)) (r : Int) 0
          (by omega) (by push_cast; ring_nf; omega) (by omega) (by omega)
          (by omega)
        exact iff_of_false hr.1 hr.2
      · exact checks_general w h r c _ ((r : Int) - 1) ((c : Int) + 1) hc
          (by push_cast; ring) (by omega) (by omega) (by omega) (by omega)
          (by rintro ⟨h1, -⟩; omega)
    · by_cases hc0 : c = 0
      · subst hc0
        have hr := checks_reject w h r 0 (-1) ((r : Int) - 1) ((w : Int) - 1)
          hc (by push_cast; ring) (by omega) (by omega) (by omega)
        exact iff_of_false hr.1 hr.2
      · exact checks_general w h r c _ (r : Int) ((c : Int) - 1) hc
          (by push_cast; ring) (by omega) (by omega) (by omega) (by omega)
          (by rintro ⟨-, h2⟩; omega)
    · by_cases hc1 : c = w - 1
      · subst hc1
        have hr := checks_reject w h r (w - 1) 1 ((r : Int) + 1) 0
          (by omega) (by push_cast; ring_nf; omega) (by omega) (by omega)
          (by omega)
        exact iff_of_false hr.1 hr.2
      · exact checks_general w h r c _ (r : Int) ((c : Int) + 1) hc
          (by push_cast; ring) (by omega) (by omega) (by omega) (by omega)
          (by rintro ⟨-, h2⟩; omega)
    · by_cases hc0 : c = 0
      · subst hc0
        have hr := checks_reject w h r 0 ((w : Int) - 1) (r : Int)
          ((w : Int) - 1) hc (by push_cast; ring) (by omega) (by omega)
          (by omega)
        exact iff_of_false hr.1 hr.2
      · exact checks_general w h r c _ ((r : Int) + 1) ((c : Int) - 1) hc
          (by push_cast; ring) (by omega) (by omega) (by omega) (by omega)
          (by rintro ⟨h1, -⟩; omega)
    · exact checks_general w h r c _ ((r : Int) + 1) (c : Int) hc
        (by push_cast; ring) (by omega) (by omega) (by omega) (by omega)
        (by rintro ⟨h1, -⟩; omega)
    · by_cases hc1 : c = w - 1
      · subst hc1
        have hr := checks_reject w h r (w - 1) ((w : Int) + 1) ((r : Int) + 2) 0
          (by omega) (by push_cast; ring_nf; omega) (by omega) (by omega)
          (by omega)
        exact iff_of_false hr.1 hr.2
      · exact checks_general w h r c _ ((r : Int) + 1) ((c : Int) + 1) hc
          (by push_cast; ring) (by omega) (by omega) (by omega) (by omega)
          (by rintro ⟨h1, -⟩; omega)

/-- Witness for C10 at width 3, height 2, cell 4 and offset -1. -/
theorem adjacency_offsets_characterization_witness :
    (3 ≤ 3 ∧ 4 < 3 * 2 ∧ (-1 : Int) ∈ adjacency_offsets 3) ∧
    (((adjacency_offsets 3).Nodup ∧ (0 : Int) ∉ adjacency_offsets 3) ∧
    (checksPass 3 2 4 (-1) = true ↔
      is_grid_neighbor 3 2 4 (((4 : Nat) : Int) + (-1))) ∧
    ((0 : Int) ∈ adjacency_offsets 1 ∧ ¬(adjacency_offsets 1).Nodup ∧
      ¬(adjacency_offsets 2).Nodup ∧
      alive_adj_cells [true] 1 1 0 = 2 ∧
      alive_adj_cells [true, true, true] 1 3 1 = 6)) :=
  ⟨⟨by decide, by decide, by decide⟩,
    adjacency_offsets_characterization 3 2 4 (-1) (by decide) (by decide)
      (by decide)⟩

/-- A row-column cell index lies inside the flattened grid. -/
theorem cell_index_lt (w h r c : Nat) (hr : r < h) (hc : c < w) :
    r * w + c < w * h := by
  have ha : (r + 1) * w = r * w + w := by ring
  have hb : (r + 1) * w ≤ h * w := Nat.mul_le_mul_right _ (by omega)
  have hd : h * w = w * h := Nat.mul_comm _ _
  omega

/-- Equality of a truncated integer row-column index with a natural
row-column index, coordinatewise. -/
theorem toNat_index_eq (w : Nat) (r2 c2 : Int) (rs cs : Nat)
    (hb1 : 0 ≤ r2) (hb3 : 0 ≤ c2) (hb4 : c2 < (w : Int)) (hcs : cs < w) :
    (r2 * (w : Int) + c2).toNat = rs * w + cs ↔
      (r2 = (rs : Int) ∧ c2 = (cs : Int)) := by
  constructor
  · intro heq
    have hnn : 0 ≤ r2 * (w : Int) + c2 :=
      add_nonneg (mul_nonneg hb1 (by positivity)) hb3
    have hInt : r2 * (w : Int) + c2 = (rs : Int) * (w : Int) + (cs : Int) := by
      have hcast := congrArg (Nat.cast : Nat → Int) heq
      rw [Int.toNat_of_nonneg hnn] at hcast
      rw [hcast]
      push_cast
      ring
    exact (index_eq_iff r2 c2 (rs : Int) (cs : Int) (w : Int) hb3 hb4
      (by positivity) (by exact_mod_cast hcs)).mp hInt
  · rintro ⟨rfl, rfl⟩
    have hcast : ((rs : Int)) * (w : Int) + (cs : Int) =
        ((rs * w + cs : Nat) : Int) := by
      push_cast
      ring
    rw [hcast]
    exact Int.toNat_natCast _

/-- A truncated integer row-column index with an in-range row and column
lies inside the flattened grid. -/
theorem toNat_index_lt (w h : Nat) (r2 c2 : Int) (hb1 : 0 ≤ r2)
    (hb2 : r2 < (h : Int)) (hb3 : 0 ≤ c2) (hb4 : c2 < (w : Int)) :
    (r2 * (w : Int) + c2).toNat < w * h := by
  have hlt := (range_row_col r2 c2 (w : Int) (h : Int) hb3 hb4).2.mpr hb2
  have hwh : ((w * h : Nat) : Int) = (w : Int) * (h : Int) := by
    push_cast
    ring
  have hw0 : 0 < w := by omega
  have hh0 : 0 < h := by omega
  have hwpos : 0 < w * h := Nat.mul_pos hw0 hh0
  omega

/-- The coordinate-level neighbour indicator on the horizontal blinker
grid: one exactly at the three live cells of row cr. -/
theorem nb_blinker_h (w h cr cc : Nat) (r2 c2 : Int) (hw : 3 ≤ w)
    (h1 : 1 ≤ cc) (h2 : cc + 2 ≤ w) (h3 : 1 ≤ cr) (h4 : cr + 2 ≤ h) :
    nb (blinker_h w h cr cc) w h r2 c2 =
      if r2 = (cr : Int) ∧ (c2 = (cc : Int) - 1 ∨ c2 = (cc : Int) ∨
          c2 = (cc : Int) + 1) then 1 else 0 := by
  unfold nb
  refine if_congr ?_ rfl rfl
  constructor
  · rintro ⟨hb1, hb2, hb3, hb4, hg⟩
    have hidx := toNat_index_lt w h r2 c2 hb1 hb2 hb3 hb4
    rw [blinker_h, getD_map_range _ _ _ hidx] at hg
    simp only [Bool.or_eq_true, decide_eq_true_eq] at hg
    rcases hg with (hg | hg) | hg
    · have he := (toNat_index_eq w r2 c2 cr (cc - 1) hb1 hb3 hb4 (by omega)).mp hg
      exact ⟨he.1, Or.inl (by omega)⟩
    · have he := (toNat_index_eq w r2 c2 cr cc hb1 hb3 hb4 (by omega)).mp hg
      exact ⟨he.1, Or.inr (Or.inl he.2)⟩
    · have he := (toNat_index_eq w r2 c2 cr (cc + 1) hb1 hb3 hb4 (by omega)).mp hg
      exact ⟨he.1, Or.inr (Or.inr (by omega))⟩
  · rintro ⟨rfl, hc2⟩
    have hb1 : (0 : Int) ≤ (cr : Int) := by positivity
    have hb2 : (cr : Int) < (h : Int) := by exact_mod_cast (by omega : cr < h)
    have hb3 : 0 ≤ c2 := by omega
    have hb4 : c2 < (w : Int) := by omega
    refine ⟨hb1, hb2, hb3, hb4, ?_⟩
    have hidx := toNat_index_lt w h (cr : Int) c2 hb1 hb2 hb3 hb4
    rw [blinker_h, getD_map_range _ _ _ hidx]
    simp only [Bool.or_eq_true, decide_eq_true_eq]
    rcases hc2 with h5 | h5 | h5
    · exact Or.inl (Or.inl ((toNat_index_eq w (cr : Int) c2 cr (cc - 1) hb1 hb3
        hb4 (by omega)).mpr ⟨rfl, by omega⟩))
    · exact Or.inl (Or.inr ((toNat_index_eq w (cr : Int) c2 cr cc hb1 hb3 hb4
        (by omega)).mpr ⟨rfl, by omega⟩))
    · exact Or.inr ((toNat_index_eq w (cr : Int) c2 cr (cc + 1) hb1 hb3
        hb4 (by omega)).mpr ⟨rfl, by omega⟩)

/-- The coordinate-level neighbour indicator on the vertical blinker grid:
one exactly at the three live cells of column cc. -/
theorem nb_blinker_v (w h cr cc : Nat) (r2 c2 : Int) (hw : 3 ≤ w)
    (h1 : 1 ≤ cc) (h2 : cc + 2 ≤ w) (h3 : 1 ≤ cr) (h4 : cr + 2 ≤ h) :
    nb (blinker_v w h cr cc) w h r2 c2 =
      if (r2 = (cr : Int) - 1 ∨ r2 = (cr : Int) ∨ r2 = (cr : Int) + 1) ∧
          c2 = (cc : Int) then 1 else 0 := by
  unfold nb
  refine if_congr ?_ rfl rfl
  constructor
  · rintro ⟨hb1, hb2, hb3, hb4, hg⟩
    have hidx := toNat_index_lt w h r2 c2 hb1 hb2 hb3 hb4
    rw [blinker_v, getD_map_range _ _ _ hidx] at hg
    simp only [Bool.or_eq_true, decide_eq_true_eq] at hg
    rcases hg with (hg | hg) | hg
    · have he := (toNat_index_eq w r2 c2 (cr - 1) cc hb1 hb3 hb4 (by omega)).mp hg
      exact ⟨Or.inl (by omega), he.2⟩
    · have he := (toNat_index_eq w r2 c2 cr cc hb1 hb3 hb4 (by omega)).mp hg
      exact ⟨Or.inr (Or.inl he.1), he.2⟩
    · have he := (toNat_index_eq w r2 c2 (cr + 1) cc hb1 hb3 hb4 (by omega)).mp hg
      exact ⟨Or.inr (Or.inr (by omega)), he.2⟩
  · rintro ⟨hr2, rfl⟩
    have hb3 : (0 : Int) ≤ (cc : Int) := by positivity
    have hb4 : (cc : Int) < (w : Int) := by exact_mod_cast (by omega : cc < w)
    have hb1 : 0 ≤ r2 := by omega
    have hb2 : r2 < (h : Int) := by omega
    refine ⟨hb1, hb2, hb3, hb4, ?_⟩
    have hidx := toNat_index_lt w h r2 (cc : Int) hb1 hb2 hb3 hb4
    rw [blinker_v, getD_map_range _ _ _ hidx]
    simp only [Bool.or_eq_true, decide_eq_true_eq]
    rcases hr2 with h5 | h5 | h5
    · exact Or.inl (Or.inl ((toNat_index_eq w r2 (cc : Int) (cr - 1) cc hb1 hb3
        hb4 (by omega)).mpr ⟨by omega, rfl⟩))
    · exact Or.inl (Or.inr ((toNat_index_eq w r2 (cc : Int) cr cc hb1 hb3 hb4
        (by omega)).mpr ⟨by omega, rfl⟩))
    · exact Or.inr ((toNat_index_eq w r2 (cc : Int) (cr + 1) cc hb1 hb3
        hb4 (by omega)).mpr ⟨by omega, rfl⟩)

/-- One generation step at any cell of the horizontal blinker grid gives
the corresponding cell of the vertical blinker grid. -/
theorem nextState_blinker_h (w h cr cc r c : Nat) (hw : 3 ≤ w)
    (h1 : 1 ≤ cc) (h2 : cc + 2 ≤ w) (h3 : 1 ≤ cr) (h4 : cr + 2 ≤ h)
    (hr : r < h) (hc : c < w) :
    nextState (r * w + c) (blinker_h w h cr cc) w h =
      (decide (r * w + c = (cr - 1) * w + cc) ||
       decide (r * w + c = cr * w + cc) ||
       decide (r * w + c = (cr + 1) * w + cc)) := by
  have e1 := index_eq_iff_nat r c cr (cc - 1) w hc (by omega)
  have e2 := index_eq_iff_nat r c cr cc w hc (by omega)
  have e3 := index_eq_iff_nat r c cr (cc + 1) w hc (by omega)
  have f1 := index_eq_iff_nat r c (cr - 1) cc w hc (by omega)
  have f3 := index_eq_iff_nat r c (cr + 1) cc w hc (by omega)
  have hself : (blinker_h w h cr cc).getD (r * w + c) false =
      decide (((r = cr ∧ c = cc - 1) ∨ (r = cr ∧ c = cc)) ∨
        (r = cr ∧ c = cc + 1)) := by
    rw [blinker_h, getD_map_range _ _ _ (cell_index_lt w h r c hr hc)]
    simp only [← Bool.decide_or, e1, e2, e3]
  rw [nextState, hself, alive_adj_cells_coord _ w h r c hw hc,
    nb_blinker_h w h cr cc ((r : Int) - 1) ((c : Int) - 1) hw h1 h2 h3 h4,
    nb_blinker_h w h cr cc ((r : Int) - 1) (c : Int) hw h1 h2 h3 h4,
    nb_blinker_h w h cr cc ((r : Int) - 1) ((c : Int) + 1) hw h1 h2 h3 h4,
    nb_blinker_h w h cr cc (r : Int) ((c : Int) - 1) hw h1 h2 h3 h4,
    nb_blinker_h w h cr cc (r : Int) ((c : Int) + 1) hw h1 h2 h3 h4,
    nb_blinker_h w h cr cc ((r : Int) + 1) ((c : Int) - 1) hw h1 h2 h3 h4,
    nb_blinker_h w h cr cc ((r : Int) + 1) (c : Int) hw h1 h2 h3 h4,
    nb_blinker_h w h cr cc ((r : Int) + 1) ((c : Int) + 1) hw h1 h2 h3 h4]
  simp only [f1, e2, f3]
  clear e1 e2 e3 f1 f3 hself
  rw [Bool.eq_iff_iff]
  split_ifs <;>
    (simp only [Bool.or_eq_true, decide_eq_true_eq, true_or, or_true,
      false_or, or_false, true_iff, iff_true, false_iff, iff_false] at * <;>
      omega)

/-- One generation step at any cell of the vertical blinker grid gives the
corresponding cell of the horizontal blinker grid. -/
theorem nextState_blinker_v (w h cr cc r c : Nat) (hw : 3 ≤ w)
    (h1 : 1 ≤ cc) (h2 : cc + 2 ≤ w) (h3 : 1 ≤ cr) (h4 : cr + 2 ≤ h)
    (hr : r < h) (hc : c < w) :
    nextState (r * w + c) (blinker_v w h cr cc) w h =
      (decide (r * w + c = cr * w + (cc - 1)) ||
       decide (r * w + c = cr * w + cc) ||
       decide (r * w + c = cr * w + (cc + 1))) := by
  have e1 := index_eq_iff_nat r c (cr - 1) cc w hc (by omega)
  have e2 := index_eq_iff_nat r c cr cc w hc (by omega)
  have e3 := index_eq_iff_nat r c (cr + 1) cc w hc (by omega)
  have f1 := index_eq_iff_nat r c cr (cc - 1) w hc (by omega)
  have f3 := index_eq_iff_nat r c cr (cc + 1) w hc (by omega)
  have hself : (blinker_v w h cr cc).getD (r * w + c) false =
      decide (((r = cr - 1 ∧ c = cc) ∨ (r = cr ∧ c = cc)) ∨
        (r = cr + 1 ∧ c = cc)) := by
    rw [blinker_v, getD_map_range _ _ _ (cell_index_lt w h r c hr hc)]
    simp only [← Bool.decide_or, e1, e2, e3]
  rw [nextState, hself, alive_adj_cells_coord _ w h r c hw hc,
    nb_blinker_v w h cr cc ((r : Int) - 1) ((c : Int) - 1) hw h1 h2 h3 h4,
    nb_blinker_v w h cr cc ((r : Int) - 1) (c : Int) hw h1 h2 h3 h4,
    nb_blinker_v w h cr cc ((r : Int) - 1) ((c : Int) + 1) hw h1 h2 h3 h4,
    nb_blinker_v w h cr cc (r : Int) ((c : Int) - 1) hw h1 h2 h3 h4,
    nb_blinker_v w h cr cc (r : Int) ((c : Int) + 1) hw h1 h2 h3 h4,
    nb_blinker_v w h cr cc ((r : Int) + 1) ((c : Int) - 1) hw h1 h2 h3 h4,
    nb_blinker_v w h cr cc ((r : Int) + 1) (c : Int) hw h1 h2 h3 h4,
    nb_blinker_v w h cr cc ((r : Int) + 1) ((c : Int) + 1) hw h1 h2 h3 h4]
  simp only [f1, e2, f3]
  clear e1 e2 e3 f1 f3 hself
  rw [Bool.eq_iff_iff]
  split_ifs <;>
    (simp only [Bool.or_eq_true, decide_eq_true_eq, true_or, or_true,
      false_or, or_false, true_iff, iff_true, false_iff, iff_false] at * <;>
      omega)

/-- Any in-range index splits into a row below the height and a column
below the width. -/
theorem index_decompose (w h i : Nat) (hw : 0 < w) (hi : i < w * h) :
    ∃ r c, c < w ∧ r < h ∧ i = r * w + c := by
  refine ⟨i / w, i % w, Nat.mod_lt _ hw, ?_, ?_⟩
  · have hdm := Nat.div_add_mod i w
    rw [Nat.mul_comm] at hdm
    by_contra hcon
    push_neg at hcon
    have hcc : h * w ≤ (i / w) * w := Nat.mul_le_mul_right _ hcon
    have hcomm : h * w = w * h := Nat.mul_comm _ _
    omega
  · have hdm := Nat.div_add_mod i w
    rw [Nat.mul_comm] at hdm
    omega

/-- One full sequential generation turns the horizontal blinker into the
vertical blinker. -/
theorem step_blinker_h (w h cr cc : Nat) (hw : 3 ≤ w) (h1 : 1 ≤ cc)
    (h2 : cc + 2 ≤ w) (h3 : 1 ≤ cr) (h4 : cr + 2 ≤ h) :
    next_generation (blinker_h w h cr cc) w h = blinker_v w h cr cc := by
  apply List.ext_getElem
  · rw [next_generation, apply_rules_length, List.length_replicate, blinker_v,
      List.length_map, List.length_range]
  · intro i hi1 hi2
    have hi : i < w * h := by
      rw [next_generation, apply_rules_length, List.length_replicate] at hi1
      exact hi1
    rw [← getD_eq_getElem _ i hi1, ← getD_eq_getElem _ i hi2]
    obtain ⟨r, c, hc, hr, rfl⟩ := index_decompose w h i (by omega) hi
    rw [next_generation, apply_rules_getD,
      if_pos ⟨Nat.zero_le _, by simpa using cell_index_lt w h r c hr hc,
        by simpa using cell_index_lt w h r c hr hc⟩,
      nextState_blinker_h w h cr cc r c hw h1 h2 h3 h4 hr hc, blinker_v,
      getD_map_range _ _ _ (cell_index_lt w h r c hr hc)]

/-- One full sequential generation turns the vertical blinker back into
the horizontal blinker. -/
theorem step_blinker_v (w h cr cc : Nat) (hw : 3 ≤ w) (h1 : 1 ≤ cc)
    (h2 : cc + 2 ≤ w) (h3 : 1 ≤ cr) (h4 : cr + 2 ≤ h) :
    next_generation (blinker_v w h cr cc) w h = blinker_h w h cr cc := by
  apply List.ext_getElem
  · rw [next_generation, apply_rules_length, List.length_replicate, blinker_h,
      List.length_map, List.length_range]
  · intro i hi1 hi2
    have hi : i < w * h := by
      rw [next_generation, apply_rules_length, List.length_replicate] at hi1
      exact hi1
    rw [← getD_eq_getElem _ i hi1, ← getD_eq_getElem _ i hi2]
    obtain ⟨r, c, hc, hr, rfl⟩ := index_decompose w h i (by omega) hi
    rw [next_generation, apply_rules_getD,
      if_pos ⟨Nat.zero_le _, by simpa using cell_index_lt w h r c hr hc,
        by simpa using cell_index_lt w h r c hr hc⟩,
      nextState_blinker_v w h cr cc r c hw h1 h2 h3 h4 hr hc, blinker_h,
      getD_map_range _ _ _ (cell_index_lt w h r c hr hc)]

/-- C5: on every grid of size at least 5 by 5, the horizontal 3-cell row
centred in the grid becomes the vertical 3-cell column after one full
generation, and a second full generation restores exactly the original
horizontal configuration. -/
theorem blinker_oscillates (w h : Nat) (hw : 5 ≤ w) (hh : 5 ≤ h) :
    next_generation (blinker_h w h (h / 2) (w / 2)) w h =
      blinker_v w h (h / 2) (w / 2) ∧
    next_generation (next_generation (blinker_h w h (h / 2) (w / 2)) w h) w h =
      blinker_h w h (h / 2) (w / 2) := by
  have c1 : 3 ≤ w := by omega
  have c2 : 1 ≤ w / 2 := by omega
  have c3 : w / 2 + 2 ≤ w := by omega
  have c4 : 1 ≤ h / 2 := by omega
  have c5 : h / 2 + 2 ≤ h := by omega
  have hstep := step_blinker_h w h (h / 2) (w / 2) c1 c2 c3 c4 c5
  refine ⟨hstep, ?_⟩
  rw [hstep]
  exact step_blinker_v w h (h / 2) (w / 2) c1 c2 c3 c4 c5

/-- Witness for C5 on the 5 by 5 grid. -/
theorem blinker_oscillates_witness :
    (5 ≤ 5 ∧ 5 ≤ 5) ∧
    (next_generation (blinker_h 5 5 (5 / 2) (5 / 2)) 5 5 =
      blinker_v 5 5 (5 / 2) (5 / 2) ∧
    next_generation (next_generation (blinker_h 5 5 (5 / 2) (5 / 2)) 5 5) 5 5 =
      blinker_h 5 5 (5 / 2) (5 / 2)) :=
  ⟨⟨by decide, by decide⟩, blinker_oscillates 5 5 (by decide) (by decide)⟩

/-- Witness for C7 on a 2 by 2 grid: three requested cells give three
trues, six requested cells fill the grid. -/
theorem fill_game_field_spec_witness :
    ((0 < 2 ∧ 0 < 2) ∧
      (fill_game_field 2 2 3 (fun i => i * 5 + 1)).length = 2 * 2 ∧
      (3 ≤ 2 * 2 → (fill_game_field 2 2 3 (fun i => i * 5 + 1)).count true = 3) ∧
      (2 * 2 ≤ 3 → fill_game_field 2 2 3 (fun i => i * 5 + 1) =
        List.replicate (2 * 2) true)) ∧
    (2 * 2 ≤ 6 → fill_game_field 2 2 6 (fun _ => 0) =
      List.replicate (2 * 2) true) :=
  ⟨⟨⟨by decide, by decide⟩,
    fill_game_field_spec 2 2 3 (fun i => i * 5 + 1) (by decide) (by decide)⟩,
   (fill_game_field_spec 2 2 6 (fun _ => 0) (by decide) (by decide)).2.2⟩

end Life
